import Mathlib

/-
  Verification development for the sparse-checkout module (src/src/sparse.c).

  The module decides, for a path in a working tree, whether it should be
  checked out (Included) or excluded, based on an ordered pattern rule set,
  and manages the pattern file lifecycle (init / list / set / add / disable /
  check_path).

  Strings are embedded as `List Char`.  External collaborators that are not
  part of src/ (the fnmatch pattern primitive, `git_attr__does_negate_rule`,
  `git_str_join`, `git__strtok_`, the configuration store) are modelled from
  the spec; each such definition carries a doc comment saying so.  The
  in-repository functions (`sparse_lookup_in_rules`, `git_sparse__lookup`,
  `parse_sparse_file`, `git_sparse_checkout__list`, `git_sparse_checkout__set`,
  `git_sparse_checkout_init`, `git_sparse_checkout_add`,
  `git_sparse_check_path`) are translated faithfully from the C source.
-/

/-- Tri-state directory flag, mirroring `git_dir_flag`
(GIT_DIR_FLAG_TRUE / GIT_DIR_FLAG_FALSE / GIT_DIR_FLAG_UNKNOWN). -/
inductive DirFlag where
  | isTrue
  | isFalse
  | unknown
deriving DecidableEq

/-- Checkout decision: `checkout` = GIT_SPARSE_CHECKOUT (Included),
`nocheckout` = GIT_SPARSE_NOCHECKOUT (Excluded). -/
inductive Decision where
  | checkout
  | nocheckout
deriving DecidableEq

/-- One parsed pattern rule, mirroring the `git_attr_fnmatch` fields that
sparse.c reads: the pattern text and the NEGATIVE / DIRECTORY / HASWILD /
ICASE flag bits. -/
structure Rule where
  pattern : List Char
  negative : Bool
  directory : Bool
  haswild : Bool
  icase : Bool
deriving DecidableEq

/-- Type of the external pattern-matching primitive
(`git_attr_fnmatch__match`): a rule against the current path prefix,
given as the list of path segments of that prefix. -/
abbrev Matcher := Rule → List (List Char) → Bool

/-- Convert a string literal to its character list. -/
def chars (s : String) : List Char := s.data

/-- Splitter worker: cut a character list at every character satisfying
`pr`, accumulating the current (reversed) chunk in `acc`. -/
def splitAux (pr : Char → Bool) : List Char → List Char → List (List Char)
  | [], acc => [acc.reverse]
  | c :: rest, acc =>
      if pr c then acc.reverse :: splitAux pr rest []
      else splitAux pr rest (c :: acc)

/-- Split a character list at every character satisfying `pr`. -/
def splitOnPred (pr : Char → Bool) (s : List Char) : List (List Char) :=
  splitAux pr s []

/-- Line-terminator characters of the pattern-file format (LF, and CR so
that CRLF and lone CR are normalized on read). -/
def termChar (c : Char) : Bool := c == '\n' || c == '\r'

/-- Split file content into raw lines (empty lines included), as the
parse loop walks the buffer with `git__next_line`. -/
def linesOf (content : List Char) : List (List Char) :=
  splitOnPred termChar content

/-- Modelled from the spec: `git__strtok_` based tokenization used by
`git_sparse_checkout__list` — split on line terminators (normalizing
CRLF/LF/lone-CR) and keep the non-empty tokens in file order. -/
def listTokens (content : List Char) : List (List Char) :=
  (splitOnPred termChar content).filter (fun t => t ≠ [])

/-- Path segments: split a path string on the slash separator. -/
def splitSlash (p : List Char) : List (List Char) :=
  splitOnPred (fun c => c == '/') p

/-- Join path segments back with slash separators. -/
def joinSlash : List (List Char) → List Char
  | [] => []
  | [s] => s
  | s :: rest => s ++ '/' :: joinSlash rest

/-- Modelled from the spec: `git_str_join` with a newline separator —
join two strings with exactly one separating newline, adding none when the
left side is empty. -/
def strJoin (a b : List Char) : List Char :=
  if a = [] then b else a ++ '\n' :: b

/-- Modelled from the spec: ASCII lowercase folding used by the external
matcher when `case_insensitive` is set. Written as an explicit table so
that its behaviour on non-letter characters is transparent. -/
def lowerChar : Char → Char
  | 'A' => 'a' | 'B' => 'b' | 'C' => 'c' | 'D' => 'd' | 'E' => 'e'
  | 'F' => 'f' | 'G' => 'g' | 'H' => 'h' | 'I' => 'i' | 'J' => 'j'
  | 'K' => 'k' | 'L' => 'l' | 'M' => 'm' | 'N' => 'n' | 'O' => 'o'
  | 'P' => 'p' | 'Q' => 'q' | 'R' => 'r' | 'S' => 's' | 'T' => 't'
  | 'U' => 'u' | 'V' => 'v' | 'W' => 'w' | 'X' => 'x' | 'Y' => 'y'
  | 'Z' => 'z'
  | c => c

/-- Case-canonicalize a string: lowercase it when `ic` is set. -/
def canon (ic : Bool) (x : List Char) : List Char :=
  if ic then x.map lowerChar else x

/-- Modelled from the spec: the glob metacharacters that make a pattern
wildcarded. -/
def isWildChar (c : Char) : Bool := c == '*' || c == '?'

/-- A pattern is wildcarded when it contains a glob metacharacter. -/
def hasWildcard (p : List Char) : Bool := p.any isWildChar

/-- All suffixes of a list, longest first (used for `*` backtracking). -/
def sfx : List Char → List (List Char)
  | [] => [[]]
  | c :: rest => (c :: rest) :: sfx rest

/-- Modelled from the spec: the external glob matching primitive on one
string — `*` matches any run, `?` any single character, other characters
match themselves. -/
def globMatch : List Char → List Char → Bool
  | [], s => s.isEmpty
  | c :: ps, s =>
      if c == '*' then (sfx s).any (fun t => globMatch ps t)
      else
        match s with
        | [] => false
        | d :: ss => (c == '?' || c == d) && globMatch ps ss

/-- Modelled from the spec: the string a rule is matched against at a
given path prefix — the full prefix when the pattern contains a slash,
otherwise the basename (last segment). -/
def ruleTarget (r : Rule) (segs : List (List Char)) : List Char :=
  if r.pattern.any (fun c => c == '/') then joinSlash segs
  else (segs.getLast?).getD []

/-- Modelled from the spec: the external matching primitive
`git_attr_fnmatch__match`, honoring `case_insensitive`. -/
def matchesModel (r : Rule) (segs : List (List Char)) : Bool :=
  globMatch (canon r.icase r.pattern) (canon r.icase (ruleTarget r segs))

/-- Modelled from the spec: `git_attr__does_negate_rule` — an accumulated
rule `prior` could be negated by the negative rule `neg` when the pattern
of `prior` can match `neg`'s pattern taken as a path. -/
def doesNegateModel (prior neg : Rule) : Bool :=
  matchesModel prior (splitSlash neg.pattern)

/-- Strip a trailing unescaped slash, reporting whether the pattern is
directory-only. -/
def stripDir (p : List Char) : List Char × Bool :=
  match p.getLast? with
  | some '/' => (p.dropLast, true)
  | _ => (p, false)

/-- Build a rule from a pattern body (negation marker already removed). -/
def mkRule (body : List Char) (neg : Bool) (ic : Bool) : Rule :=
  { pattern := (stripDir body).fst
    negative := neg
    directory := (stripDir body).snd
    haswild := hasWildcard (stripDir body).fst
    icase := ic }

/-- Modelled from the spec: the external line parser
`git_attr_fnmatch__parse` as sparse.c invokes it (ALLOWSPACE, ALLOWNEG) —
a leading unescaped `!` negates, a trailing unescaped `/` marks
directory-only, glob metacharacters mark the rule wildcarded,
`case_insensitive` is copied from the repository-wide flag; an empty line
or missing pattern body is a skipped line, not an error. -/
def parseLine (ic : Bool) (line : List Char) : Option Rule :=
  match line with
  | [] => none
  | '!' :: rest =>
      if rest = [] then none
      else some (mkRule rest true ic)
  | l => some (mkRule l false ic)

/-- One iteration of the `parse_sparse_file` loop: parse a line; on
success, drop the rule when it is negative, wildcard-free and negates no
rule already accumulated (`git_attr__does_negate_rule`), otherwise insert
it at the end of the rule vector. -/
def parse_step (negOne : Rule → Rule → Bool) (ic : Bool)
    (acc : List Rule) (line : List Char) : List Rule :=
  match parseLine ic line with
  | none => acc
  | some r =>
      if r.negative && !r.haswild then
        if acc.any (fun prior => negOne prior r) then acc ++ [r] else acc
      else acc ++ [r]

/-- The `parse_sparse_file` loop over the whole pattern text, already
split into lines: fold the per-line step over an initially empty rule
vector. -/
def parse_sparse_file (negOne : Rule → Rule → Bool) (ic : Bool)
    (lines : List (List Char)) : List Rule :=
  lines.foldl (parse_step negOne ic) []

/-- One iteration of the parse loop with the dead-rule elimination step
removed: every syntactically valid rule is inserted. -/
def parse_step_ne (ic : Bool) (acc : List Rule) (line : List Char) : List Rule :=
  match parseLine ic line with
  | none => acc
  | some r => acc ++ [r]

/-- The parse loop with the dead-rule elimination step removed. -/
def parse_sparse_file_ne (ic : Bool) (lines : List (List Char)) : List Rule :=
  lines.foldl (parse_step_ne ic) []

/-- Translation of `sparse_lookup_in_rules` (sparse.c lines 14-34): scan
the rule vector in reverse insertion order (`git_vector_rforeach`); skip a
DIRECTORY rule when the path is known not to be a directory; the first
rule the matching primitive accepts yields the decision — NOCHECKOUT when
the rule is NEGATIVE, CHECKOUT otherwise.  `none` means no rule matched. -/
def sparse_lookup_in_rules (m : Matcher) (rules : List Rule)
    (segs : List (List Char)) (isDir : DirFlag) : Option Decision :=
  (rules.reverse).findSome? (fun r =>
    if r.directory && isDir == DirFlag.isFalse then none
    else if m r segs then
      some (if r.negative then Decision.nocheckout else Decision.checkout)
    else none)

/-- The `while (1)` ancestor walk of `git_sparse__lookup` (sparse.c lines
204-217), on the reversed segment list of the current prefix: scan the
rules at the current prefix; on a match stop with that decision; when the
prefix is a single segment (`basename == path`) stop with NOCHECKOUT;
otherwise drop the leaf segment, mark the shorter prefix as a directory
and continue. -/
def lookup_walk (m : Matcher) (rules : List Rule) :
    List (List Char) → DirFlag → Decision
  | [], _ => Decision.nocheckout
  | s :: rest, isDir =>
      (sparse_lookup_in_rules m rules ((s :: rest).reverse) isDir).getD
        (match rest with
         | [] => Decision.nocheckout
         | t :: ts => lookup_walk m rules (t :: ts) DirFlag.isTrue)

/-- Translation of `git_sparse__lookup` (sparse.c lines 183-222): the
decision defaults to NOCHECKOUT and the ancestor walk starts at the full
path with the caller's directory flag. -/
def git_sparse__lookup (m : Matcher) (rules : List Rule)
    (segs : List (List Char)) (dirFlag : DirFlag) : Decision :=
  lookup_walk m rules segs.reverse dirFlag

/-- First-some combinator: the loop stops with `o`'s value when the scan
matched, and otherwise continues with `k`. -/
def orCont (o : Option Decision) (k : Option Decision) : Option Decision :=
  match o with
  | some d => some d
  | none => k

/-- Fuel-indexed version of the `while (1)` loop of `git_sparse__lookup`,
for the termination claim: each loop iteration consumes one unit of fuel;
`none` means the fuel ran out before the loop finished. -/
def lookup_loop_fuel (m : Matcher) (rules : List Rule) :
    Nat → List (List Char) → DirFlag → Option Decision
  | 0, _, _ => none
  | _ + 1, [], _ => some Decision.nocheckout
  | fuel + 1, s :: rest, isDir =>
      orCont (sparse_lookup_in_rules m rules ((s :: rest).reverse) isDir)
        (match rest with
         | [] => some Decision.nocheckout
         | t :: ts => lookup_loop_fuel m rules fuel (t :: ts) DirFlag.isTrue)

/-- Spec-side per-level scan, following the spec's words: among the rules
in reverse insertion order, keep the applicable ones (a `directory_only`
rule is not applicable when the current segment is known not to be a
directory), take the first whose pattern matches the current prefix, and
decide Excluded when that rule is negated and Included otherwise. -/
def specLevelScan (m : Matcher) (rules : List Rule)
    (segs : List (List Char)) (isDir : DirFlag) : Option Decision :=
  (((rules.reverse).filter
      (fun r => !(r.directory && isDir == DirFlag.isFalse))).find?
      (fun r => m r segs)).map
    (fun r => if r.negative then Decision.nocheckout else Decision.checkout)

/-- All non-empty tail segments of a reversed segment list: the levels of
the ancestor walk, leaf prefix first. -/
def levelList : List (List Char) → List (List (List Char))
  | [] => []
  | s :: rest => (s :: rest) :: levelList rest

/-- Spec-side level sequence: the leaf prefix carries the caller's
directory flag, every ancestor prefix is known to be a directory. -/
def specLevelsRev (rev : List (List Char)) (isDir : DirFlag) :
    List (List (List Char) × DirFlag) :=
  match rev with
  | [] => []
  | s :: rest =>
      ((s :: rest).reverse, isDir) ::
        (levelList rest).map (fun l => (l.reverse, DirFlag.isTrue))

/-- Spec-side lookup, following the spec's words: evaluate the levels
from the leaf prefix toward the root; the first level at which an
applicable rule matches is terminal for the whole walk; when no rule
matches at any level the decision is Excluded. -/
def git_sparse_lookup_spec (m : Matcher) (rules : List Rule)
    (segs : List (List Char)) (isDir : DirFlag) : Decision :=
  ((specLevelsRev segs.reverse isDir).findSome?
      (fun pd => specLevelScan m rules pd.fst pd.snd)).getD Decision.nocheckout

/-- Translation of `git_sparse_checkout__list` (sparse.c lines 229-252),
at the level of the pattern-file content: tokenize the file on line
terminators and return the non-empty tokens in file order. -/
def git_sparse_checkout__list (content : List Char) : List (List Char) :=
  listTokens content

/-- Translation of `git_sparse_checkout__set` (sparse.c lines 283-310),
at the level of the pattern-file content: join the patterns with newline
separators (`git_str_join` in a `git_vector_foreach` loop) and overwrite
the file with the result. -/
def git_sparse_checkout__set (patterns : List (List Char)) : List Char :=
  patterns.foldl strJoin []

/-- Result of reading the boolean `core.sparseCheckout` configuration
entry from the external configuration store: present with a value, key
absent, or a read failure. -/
inductive ConfigRead where
  | ok (b : Bool)
  | notFound
  | readErr
deriving DecidableEq

/-- GIT_ENOTFOUND error code. -/
def GIT_ENOTFOUND : Int := -3

/-- The repository state the sparse-checkout module touches: the
`core.sparseCheckout` configuration entry, the pattern-file content
(`none` when the file does not exist), the bare flag and the
`core.ignorecase` flag. -/
structure RepoState where
  sparseFlag : ConfigRead
  fileContent : Option (List Char)
  isBare : Bool
  ignoreCase : Bool
deriving DecidableEq

/-- Modelled from the spec: `git_repository__configmap_lookup` of
GIT_CONFIGMAP_SPARSECHECKOUT — an absent key is treated as "use defaults"
(success with false), a read failure returns a negative error code. -/
def configmap_sparse : ConfigRead → Int × Bool
  | ConfigRead.ok b => (0, b)
  | ConfigRead.notFound => (0, false)
  | ConfigRead.readErr => (-1, false)

/-- Modelled from the spec: `git_config_get_bool` of
`core.sparseCheckout` — an absent key returns GIT_ENOTFOUND and leaves
the output false, a read failure returns a negative error code. -/
def config_get_bool : ConfigRead → Int × Bool
  | ConfigRead.ok b => (0, b)
  | ConfigRead.notFound => (GIT_ENOTFOUND, false)
  | ConfigRead.readErr => (-1, false)

/-- Does the path name end with a trailing slash
(`!git__suffixcmp(pathname, "/")`)? -/
def endsWithSlash (p : List Char) : Bool := p.getLast? == some '/'

/-- Directory-flag computation of `git_sparse_check_path` (sparse.c lines
505-521): the flag starts as GIT_DIR_FLAG_FALSE, a trailing slash makes
it GIT_DIR_FLAG_TRUE, and the bare-repository branch re-assigns
GIT_DIR_FLAG_FALSE (the value it already has). -/
def dir_flag_of (repo : RepoState) (pathname : List Char) : DirFlag :=
  if endsWithSlash pathname then DirFlag.isTrue
  else if repo.isBare then DirFlag.isFalse
  else DirFlag.isFalse

/-- The rule set `git_sparse__init` builds for a repository: parse the
pattern-file content (an absent file reads as empty) with the
repository's `core.ignorecase` flag. -/
def repoRules (repo : RepoState) : List Rule :=
  parse_sparse_file doesNegateModel repo.ignoreCase
    (linesOf (repo.fileContent.getD []))

/-- Translation of `git_sparse_check_path` (sparse.c lines 497-528): the
output decision is preset to GIT_SPARSE_CHECKOUT; when the configmap
lookup of the enabled flag fails or the flag is false the function
returns success immediately with that preset decision; otherwise it
parses the pattern file, computes the directory flag from the path form
and delegates to `git_sparse__lookup`. -/
def git_sparse_check_path (repo : RepoState) (pathname : List Char) :
    Int × Decision :=
  let res := configmap_sparse repo.sparseFlag
  if res.fst < 0 ∨ res.snd = false then (0, Decision.checkout)
  else
    (0, git_sparse__lookup matchesModel (repoRules repo)
          (splitSlash pathname) (dir_flag_of repo pathname))

/-- Translation of `git_sparse_checkout_init` (sparse.c lines 312-346):
set `core.sparseCheckout` to true; create the pattern file when it does
not exist (`git_sparse_attr_file__init`, which never overwrites an
existing file); when the file did not exist, write the default pattern
pair via `git_sparse_checkout__set`. -/
def git_sparse_checkout_init (repo : RepoState) : Int × RepoState :=
  let repo1 : RepoState := { repo with sparseFlag := ConfigRead.ok true }
  match repo1.fileContent with
  | some c => (0, { repo1 with fileContent := some c })
  | none =>
      let defContent := git_sparse_checkout__set [chars "/*", chars "!/*/"]
      (0, { repo1 with fileContent := some defContent })

/-- Translation of `git_sparse_checkout_add` (sparse.c lines 456-495)
composed with `git_sparse_checkout__add` (lines 416-454): read the
enabled flag with `git_config_get_bool`; a read failure other than
GIT_ENOTFOUND aborts with that error; when the flag is not true the
function jumps to `done` and returns the error code left by the
configuration read (0 when the key was present and false, GIT_ENOTFOUND
when it was absent) without touching the file; otherwise it lists the
existing patterns, appends the new ones after them and overwrites the
file with the concatenation. -/
def git_sparse_checkout_add (patterns : List (List Char))
    (repo : RepoState) : Int × RepoState :=
  match repo.sparseFlag with
  | ConfigRead.readErr => (-1, repo)
  | ConfigRead.notFound => (GIT_ENOTFOUND, repo)
  | ConfigRead.ok false => (0, repo)
  | ConfigRead.ok true =>
      let content := repo.fileContent.getD []
      let existing := git_sparse_checkout__list content
      let newContent := git_sparse_checkout__set (existing ++ patterns)
      (0, { repo with fileContent := some newContent })

/-- A guarded findSome over a list equals mapping the decision over the
first `find?` hit among the kept elements. -/
theorem findSome_guard_eq (skip q : Rule → Bool) (dec : Rule → Decision) :
    ∀ l : List Rule,
      (l.findSome? (fun r =>
          if skip r then none
          else if q r then some (dec r) else none)) =
        ((l.filter (fun r => !(skip r))).find? q).map dec := by
  intro l
  induction l with
  | nil => rfl
  | cons a l ih =>
      cases hs : skip a with
      | true => simpa [List.findSome?_cons, List.filter_cons, hs] using ih
      | false =>
          cases hq : q a with
          | true => simp [List.findSome?_cons, List.filter_cons, List.find?_cons, hs, hq]
          | false =>
              simpa [List.findSome?_cons, List.filter_cons, List.find?_cons, hs, hq] using ih

/-- The per-level scan of the source equals the spec-side per-level
scan. -/
theorem sparse_lookup_in_rules_eq_spec (m : Matcher) (rules : List Rule)
    (segs : List (List Char)) (isDir : DirFlag) :
    sparse_lookup_in_rules m rules segs isDir = specLevelScan m rules segs isDir := by
  exact findSome_guard_eq
    (fun r => r.directory && isDir == DirFlag.isFalse)
    (fun r => m r segs)
    (fun r => if r.negative then Decision.nocheckout else Decision.checkout)
    rules.reverse

/-- Step equation of the ancestor walk at a non-empty prefix. -/
theorem lookup_walk_cons (m : Matcher) (rules : List Rule) (s : List Char)
    (rest : List (List Char)) (isDir : DirFlag) :
    lookup_walk m rules (s :: rest) isDir =
      (sparse_lookup_in_rules m rules ((s :: rest).reverse) isDir).getD
        (match rest with
         | [] => Decision.nocheckout
         | t :: ts => lookup_walk m rules (t :: ts) DirFlag.isTrue) := by
  cases rest with
  | nil => rfl
  | cons t ts => rfl

/-- Step equation of the fuel-indexed loop at a non-empty prefix. -/
theorem lookup_loop_fuel_succ_cons (m : Matcher) (rules : List Rule) (k : Nat)
    (s : List Char) (rest : List (List Char)) (isDir : DirFlag) :
    lookup_loop_fuel m rules (k + 1) (s :: rest) isDir =
      orCont (sparse_lookup_in_rules m rules ((s :: rest).reverse) isDir)
        (match rest with
         | [] => some Decision.nocheckout
         | t :: ts => lookup_loop_fuel m rules k (t :: ts) DirFlag.isTrue) := by
  cases rest with
  | nil => rfl
  | cons t ts => rfl

/-- The ancestor-level list at directory flag `isTrue` is the mapped
level list. -/
theorem specLevelsRev_isTrue (rev : List (List Char)) :
    (levelList rev).map (fun l => (l.reverse, DirFlag.isTrue)) =
      specLevelsRev rev DirFlag.isTrue := by
  cases rev <;> rfl

/-- The source's ancestor walk equals the spec-side first-match over the
level sequence. -/
theorem lookup_walk_eq_spec (m : Matcher) (rules : List Rule) :
    ∀ (rev : List (List Char)) (isDir : DirFlag),
      lookup_walk m rules rev isDir =
        ((specLevelsRev rev isDir).findSome?
            (fun pd => specLevelScan m rules pd.fst pd.snd)).getD Decision.nocheckout := by
  intro rev
  induction rev with
  | nil => intro isDir; rfl
  | cons s rest ih =>
      intro isDir
      have hlv : specLevelsRev (s :: rest) isDir =
          ((s :: rest).reverse, isDir) ::
            (levelList rest).map (fun l => (l.reverse, DirFlag.isTrue)) := rfl
      rw [lookup_walk_cons, sparse_lookup_in_rules_eq_spec, hlv, List.findSome?_cons]
      cases hscan : specLevelScan m rules ((s :: rest).reverse) isDir with
      | some d => rfl
      | none =>
          cases rest with
          | nil => rfl
          | cons t ts =>
              show lookup_walk m rules (t :: ts) DirFlag.isTrue =
                (List.findSome? (fun pd => specLevelScan m rules pd.fst pd.snd)
                  ((levelList (t :: ts)).map
                    (fun l => (l.reverse, DirFlag.isTrue)))).getD Decision.nocheckout
              rw [ih DirFlag.isTrue, specLevelsRev_isTrue]

/-- When the rule set is empty, every level scan finds nothing. -/
theorem lookup_walk_nil_rules (m : Matcher) :
    ∀ (rev : List (List Char)) (isDir : DirFlag),
      lookup_walk m [] rev isDir = Decision.nocheckout := by
  intro rev
  induction rev with
  | nil => intro isDir; rfl
  | cons s rest ih =>
      intro isDir
      cases rest with
      | nil => rfl
      | cons t ts => exact ih DirFlag.isTrue

/-- C1: lookup evaluates the levels from the leaf prefix toward the
root; at each level it scans the rules in reverse insertion order,
skipping directory-only rules when the current path is known not to be a
directory; the first matching applicable rule is terminal for the whole
walk, deciding Excluded when negated and Included otherwise; when no
rule matches at any level — in particular for an empty rule set — the
decision is Excluded. -/
theorem git_sparse_lookup_spec_correct :
    (∀ (m : Matcher) (rules : List Rule) (segs : List (List Char)) (isDir : DirFlag),
        git_sparse__lookup m rules segs isDir = git_sparse_lookup_spec m rules segs isDir) ∧
    (∀ (m : Matcher) (segs : List (List Char)) (isDir : DirFlag),
        git_sparse__lookup m [] segs isDir = Decision.nocheckout) := by
  constructor
  · intro m rules segs isDir
    exact lookup_walk_eq_spec m rules segs.reverse isDir
  · intro m segs isDir
    exact lookup_walk_nil_rules m segs.reverse isDir

/-- The fuel-indexed loop finishes within `rev.length` iterations and
computes the walk's decision. -/
theorem lookup_loop_fuel_completes (m : Matcher) (rules : List Rule) :
    ∀ (rev : List (List Char)) (isDir : DirFlag) (fuel : Nat),
      rev.length ≤ fuel → 0 < fuel →
      lookup_loop_fuel m rules fuel rev isDir = some (lookup_walk m rules rev isDir) := by
  intro rev
  induction rev with
  | nil =>
      intro isDir fuel _ hpos
      cases fuel with
      | zero => exact absurd hpos (by simp)
      | succ k => rfl
  | cons s rest ih =>
      intro isDir fuel hlen hpos
      cases fuel with
      | zero =>
          exact absurd hpos (by simp)
      | succ k =>
          rw [lookup_loop_fuel_succ_cons, lookup_walk_cons]
          cases hscan : sparse_lookup_in_rules m rules ((s :: rest).reverse) isDir with
          | some d => simp [orCont, hscan]
          | none =>
              cases rest with
              | nil => simp [orCont, hscan]
              | cons t ts =>
                  simp only [orCont, hscan, Option.getD_none]
                  exact ih DirFlag.isTrue k
                    (by simpa using Nat.le_of_succ_le_succ hlen)
                    (Nat.lt_of_lt_of_le (by simp) (Nat.le_of_succ_le_succ hlen))

/-- C8: lookup is total — for every rule set and non-empty path the
`while (1)` ancestor walk terminates within one iteration per path
segment (the prefix cursor strictly shortens each time no rule matches,
and the walk stops at the root), producing the decision of
`git_sparse__lookup`. -/
theorem git_sparse_lookup_total (m : Matcher) (rules : List Rule)
    (segs : List (List Char)) (isDir : DirFlag) (h : segs ≠ []) :
    lookup_loop_fuel m rules segs.length segs.reverse isDir =
      some (git_sparse__lookup m rules segs isDir) := by
  unfold git_sparse__lookup
  exact lookup_loop_fuel_completes m rules segs.reverse isDir segs.length
    (by simp) (by cases segs with | nil => exact absurd rfl h | cons a l => simp)

/-- Witness for C8 at a concrete two-segment path and the modelled
matcher. -/
theorem git_sparse_lookup_total_witness :
    lookup_loop_fuel matchesModel [] ([chars "a", chars "b"]).length
        ([chars "a", chars "b"]).reverse DirFlag.isFalse =
      some (git_sparse__lookup matchesModel [] [chars "a", chars "b"] DirFlag.isFalse) :=
  git_sparse_lookup_total matchesModel [] [chars "a", chars "b"] DirFlag.isFalse (by simp)

/-- C5: check_path returns success with the decision Included whenever
the persistent sparse-checkout enabled flag is present and false,
regardless of the pattern file's contents, the path, or any other
repository state. -/
theorem check_path_disabled_included (repo : RepoState) (pathname : List Char)
    (h : repo.sparseFlag = ConfigRead.ok false) :
    git_sparse_check_path repo pathname = (0, Decision.checkout) := by
  simp [git_sparse_check_path, h, configmap_sparse]

/-- Witness for C5 at a concrete repository whose pattern file would
exclude the path if rules were consulted. -/
theorem check_path_disabled_included_witness :
    git_sparse_check_path
        { sparseFlag := ConfigRead.ok false
          fileContent := some (chars "!a.txt")
          isBare := false
          ignoreCase := false } (chars "a.txt") = (0, Decision.checkout) :=
  check_path_disabled_included _ _ rfl

/-- C9: when reading the sparse-checkout enabled configuration value
fails with an error (not only the absent-key case), check_path swallows
the error: it returns success (0) with the decision Included, and no
configuration-read failure reaches its caller. -/
theorem check_path_config_error_swallowed (repo : RepoState) (pathname : List Char)
    (h : repo.sparseFlag = ConfigRead.readErr) :
    git_sparse_check_path repo pathname = (0, Decision.checkout) := by
  simp [git_sparse_check_path, h, configmap_sparse]

/-- Witness for C9 at a concrete repository with a failing configuration
read. -/
theorem check_path_config_error_swallowed_witness :
    git_sparse_check_path
        { sparseFlag := ConfigRead.readErr
          fileContent := some (chars "!a.txt")
          isBare := false
          ignoreCase := false } (chars "a.txt") = (0, Decision.checkout) :=
  check_path_config_error_swallowed _ _ rfl

/-- Elements reported by a findSome can pass through a filter that only
discards elements on which the function returns none. -/
theorem findSome_skip_filter (f : Rule → Option Decision) (keep : Rule → Bool)
    (h : ∀ a, keep a = false → f a = none) :
    ∀ l : List Rule, l.findSome? f = (l.filter keep).findSome? f := by
  intro l
  induction l with
  | nil => rfl
  | cons a l ih =>
      cases hk : keep a with
      | false => simpa [List.findSome?_cons, List.filter_cons, hk, h a hk] using ih
      | true =>
          cases hf : f a with
          | some b => simp [List.findSome?_cons, List.filter_cons, hk, hf]
          | none => simpa [List.findSome?_cons, List.filter_cons, hk, hf] using ih

/-- C10: in check_path on a non-bare repository, a path without a
trailing slash gets directory status GIT_DIR_FLAG_FALSE (known not a
directory — the unknown tri-state is never produced), and therefore the
per-level scan of the subsequent lookup at that flag skips every
directory-only rule: it behaves as if those rules were filtered out. -/
theorem check_path_dir_flag_known_not_dir (repo : RepoState) (pathname : List Char)
    (hbare : repo.isBare = false) (hslash : endsWithSlash pathname = false) :
    dir_flag_of repo pathname = DirFlag.isFalse ∧
    (∀ (rules : List Rule) (segs : List (List Char)),
        sparse_lookup_in_rules matchesModel rules segs (dir_flag_of repo pathname) =
          sparse_lookup_in_rules matchesModel
            (rules.filter (fun r => !r.directory)) segs (dir_flag_of repo pathname)) := by
  have hdf : dir_flag_of repo pathname = DirFlag.isFalse := by
    simp [dir_flag_of, hslash, hbare]
  refine ⟨hdf, ?_⟩
  intro rules segs
  rw [hdf]
  unfold sparse_lookup_in_rules
  rw [findSome_skip_filter _ (fun r => !r.directory) ?_ rules.reverse,
    List.filter_reverse]
  intro a ha
  have hdir : a.directory = true := by simpa using ha
  simp [hdir]

/-- Witness for C10 at a concrete non-bare repository and a concrete
path without a trailing slash. -/
theorem check_path_dir_flag_known_not_dir_witness :
    dir_flag_of
        { sparseFlag := ConfigRead.ok true
          fileContent := some (chars "sub/")
          isBare := false
          ignoreCase := false } (chars "sub") = DirFlag.isFalse :=
  (check_path_dir_flag_known_not_dir _ (chars "sub") rfl (by decide)).left

/-- C7: init sets the persistent enabled flag to true; when the pattern
file does not exist it creates it and writes exactly the default pattern
pair via the pattern store's set (so a subsequent list returns exactly
that pair); when the file already exists its contents are left
unchanged; hence a second init leaves the pattern-file contents of the
first unchanged. -/
theorem checkout_init_defaults_idempotent (repo : RepoState) :
    ((git_sparse_checkout_init repo).snd.sparseFlag = ConfigRead.ok true) ∧
    (repo.fileContent = none →
        (git_sparse_checkout_init repo).snd.fileContent =
          some (git_sparse_checkout__set [chars "/*", chars "!/*/"]) ∧
        git_sparse_checkout__list
            (((git_sparse_checkout_init repo).snd.fileContent).getD []) =
          [chars "/*", chars "!/*/"]) ∧
    (∀ c, repo.fileContent = some c →
        (git_sparse_checkout_init repo).snd.fileContent = some c) ∧
    ((git_sparse_checkout_init (git_sparse_checkout_init repo).snd).snd.fileContent =
        (git_sparse_checkout_init repo).snd.fileContent) := by
  cases hf : repo.fileContent with
  | none =>
      refine ⟨?_, fun _ => ⟨?_, ?_⟩, fun c hc => ?_, ?_⟩
      · simp [git_sparse_checkout_init, hf]
      · simp [git_sparse_checkout_init, hf]
      · simp only [git_sparse_checkout_init, hf]
        decide
      · exact absurd hc (by simp)
      · simp [git_sparse_checkout_init, hf]
  | some c0 =>
      refine ⟨?_, fun hn => ?_, fun c hc => ?_, ?_⟩
      · simp [git_sparse_checkout_init, hf]
      · exact absurd hn (by simp)
      · simp only [git_sparse_checkout_init, hf]
        simpa using hc
      · simp [git_sparse_checkout_init, hf]

/-- Witness for C7: on a repository without a pattern file, init writes
the default pair. -/
theorem checkout_init_defaults_idempotent_witness :
    (git_sparse_checkout_init
        { sparseFlag := ConfigRead.notFound
          fileContent := none
          isBare := false
          ignoreCase := false }).snd.fileContent =
      some (git_sparse_checkout__set [chars "/*", chars "!/*/"]) :=
  ((checkout_init_defaults_idempotent _).right.left rfl).left

/-- Parsing one more line applies the per-line step to the rule set
accumulated from the earlier lines. -/
theorem parse_sparse_file_snoc (negOne : Rule → Rule → Bool) (ic : Bool)
    (lines : List (List Char)) (line : List Char) :
    parse_sparse_file negOne ic (lines ++ [line]) =
      parse_step negOne ic (parse_sparse_file negOne ic lines) line := by
  unfold parse_sparse_file
  rw [List.foldl_append]
  rfl

/-- C2: during parsing, a rule that is negated and has no wildcard is
inserted exactly when some rule already accumulated in the set could be
negated by its pattern (and dropped otherwise); a negated rule with a
wildcard and a non-negated syntactically valid rule are always
inserted. -/
theorem parse_dead_rule_insertion (negOne : Rule → Rule → Bool) (ic : Bool)
    (lines : List (List Char)) (line : List Char) (r : Rule)
    (hp : parseLine ic line = some r) :
    ((r.negative = false ∨ r.haswild = true) →
        parse_sparse_file negOne ic (lines ++ [line]) =
          parse_sparse_file negOne ic lines ++ [r]) ∧
    (r.negative = true → r.haswild = false →
        parse_sparse_file negOne ic (lines ++ [line]) =
          (if (parse_sparse_file negOne ic lines).any (fun prior => negOne prior r)
           then parse_sparse_file negOne ic lines ++ [r]
           else parse_sparse_file negOne ic lines)) := by
  constructor
  · intro hor
    rw [parse_sparse_file_snoc]
    unfold parse_step
    rw [hp]
    rcases hor with h | h
    · simp [h]
    · simp [h]
  · intro hneg hwild
    rw [parse_sparse_file_snoc]
    unfold parse_step
    rw [hp]
    simp [hneg, hwild]

/-- Witness for C2: parsing the negation `!b.txt` after `*.txt`
goes through the accumulated-set check, whose outcome decides the
insertion. -/
theorem parse_dead_rule_insertion_witness :
    parseLine false (chars "!b.txt") = some (mkRule (chars "b.txt") true false) ∧
    parse_sparse_file doesNegateModel false ([chars "*.txt"] ++ [chars "!b.txt"]) =
      (if (parse_sparse_file doesNegateModel false [chars "*.txt"]).any
          (fun prior => doesNegateModel prior (mkRule (chars "b.txt") true false))
       then parse_sparse_file doesNegateModel false [chars "*.txt"] ++
              [mkRule (chars "b.txt") true false]
       else parse_sparse_file doesNegateModel false [chars "*.txt"]) :=
  ⟨by decide,
   (parse_dead_rule_insertion doesNegateModel false [chars "*.txt"]
       (chars "!b.txt") (mkRule (chars "b.txt") true false) (by decide)).right
     (by decide) (by decide)⟩

/-- Splitting skips over a chunk that contains no cut character,
accumulating it. -/
theorem splitAux_no_term (pr : Char → Bool) :
    ∀ (p s acc : List Char), (∀ c ∈ p, pr c = false) →
      splitAux pr (p ++ s) acc = splitAux pr s (p.reverse ++ acc) := by
  intro p
  induction p with
  | nil => intro s acc _; simp
  | cons c p ih =>
      intro s acc h
      have hc : pr c = false := h c (by simp)
      have hrest : ∀ x ∈ p, pr x = false := fun x hx => h x (by simp [hx])
      simp only [List.cons_append, splitAux, hc, Bool.false_eq_true, if_false,
        List.append_eq]
      rw [ih s (c :: acc) hrest]
      simp

/-- Splitting at a cut character splits the buffer independently on both
sides. -/
theorem splitAux_term_split (pr : Char → Bool) (t : Char) (ht : pr t = true) :
    ∀ (x y acc : List Char),
      splitAux pr (x ++ t :: y) acc = splitAux pr x acc ++ splitAux pr y [] := by
  intro x
  induction x with
  | nil => intro y acc; simp [splitAux, ht]
  | cons c x ih =>
      intro y acc
      cases hc : pr c with
      | true =>
          simp only [List.cons_append, splitAux, hc, if_true, List.append_eq]
          rw [ih y []]
      | false =>
          simp only [List.cons_append, splitAux, hc, Bool.false_eq_true, if_false,
            List.append_eq]
          rw [ih y (c :: acc)]

/-- A chunk without cut characters splits to itself. -/
theorem splitOnPred_clean (pr : Char → Bool) (p : List Char)
    (h : ∀ c ∈ p, pr c = false) : splitOnPred pr p = [p] := by
  have := splitAux_no_term pr p [] [] h
  simpa [splitOnPred, splitAux] using this

/-- Joining one more clean, non-empty pattern adds exactly one token. -/
theorem listTokens_strJoin (a p : List Char) (hne : p ≠ [])
    (hcl : ∀ c ∈ p, termChar c = false) :
    listTokens (strJoin a p) = listTokens a ++ [p] := by
  by_cases ha : a = []
  · subst ha
    unfold strJoin
    rw [if_pos rfl]
    unfold listTokens
    rw [splitOnPred_clean termChar p hcl]
    simp [hne, splitOnPred, splitAux]
  · unfold strJoin
    rw [if_neg ha]
    unfold listTokens
    rw [show (a ++ '\n' :: p : List Char) = a ++ '\n' :: p from rfl]
    unfold splitOnPred
    rw [splitAux_term_split termChar '\n' (by decide) a p []]
    rw [List.filter_append]
    congr 1
    rw [show splitAux termChar p [] = splitOnPred termChar p from rfl,
      splitOnPred_clean termChar p hcl]
    simp [hne]

/-- Round-trip engine: folding the newline join over clean non-empty
patterns and tokenizing back recovers the token list of the seed followed
by the patterns. -/
theorem listTokens_foldl_strJoin :
    ∀ (P : List (List Char)) (a : List Char),
      (∀ p ∈ P, p ≠ [] ∧ ∀ c ∈ p, termChar c = false) →
      listTokens (P.foldl strJoin a) = listTokens a ++ P := by
  intro P
  induction P with
  | nil => intro a _; simp
  | cons p P ih =>
      intro a h
      have hp := h p (by simp)
      have hrest : ∀ x ∈ P, x ≠ [] ∧ ∀ c ∈ x, termChar c = false :=
        fun x hx => h x (by simp [hx])
      simp only [List.foldl_cons]
      rw [ih (strJoin a p) hrest, listTokens_strJoin a p hp.left hp.right]
      simp

/-- C4: for every ordered sequence of non-empty patterns containing no
line-terminator characters, writing them with the pattern store's set and
reading back with list returns exactly the same sequence in the same
order. -/
theorem set_list_roundtrip (P : List (List Char))
    (h : ∀ p ∈ P, p ≠ [] ∧ ∀ c ∈ p, termChar c = false) :
    git_sparse_checkout__list (git_sparse_checkout__set P) = P := by
  have := listTokens_foldl_strJoin P [] h
  simpa [git_sparse_checkout__set, git_sparse_checkout__list, listTokens,
    splitOnPred, splitAux] using this

/-- Witness for C4 at the default pattern pair. -/
theorem set_list_roundtrip_witness :
    git_sparse_checkout__list
        (git_sparse_checkout__set [chars "/*", chars "!/*/"]) =
      [chars "/*", chars "!/*/"] :=
  set_list_roundtrip [chars "/*", chars "!/*/"] (by decide)

/-- Every chunk produced by the splitter is free of cut characters. -/
theorem splitAux_chunks_clean (pr : Char → Bool) :
    ∀ (s acc : List Char), (∀ c ∈ acc, pr c = false) →
      ∀ t ∈ splitAux pr s acc, ∀ c ∈ t, pr c = false := by
  intro s
  induction s with
  | nil =>
      intro acc hacc t ht c hc
      have : t = acc.reverse := by simpa [splitAux] using ht
      subst this
      exact hacc c (List.mem_reverse.mp hc)
  | cons a s ih =>
      intro acc hacc t ht c hc
      cases hpa : pr a with
      | true =>
          simp only [splitAux, hpa, if_true, List.mem_cons] at ht
          rcases ht with rfl | ht
          · exact hacc c (List.mem_reverse.mp hc)
          · exact ih [] (by simp) t ht c hc
      | false =>
          simp only [splitAux, hpa, Bool.false_eq_true, if_false] at ht
          refine ih (a :: acc) ?_ t ht c hc
          intro x hx
          rcases List.mem_cons.mp hx with rfl | hx
          · exact hpa
          · exact hacc x hx

/-- Every token returned by the pattern store's list is non-empty and
free of line terminators. -/
theorem listTokens_good (content : List Char) :
    ∀ t ∈ listTokens content, t ≠ [] ∧ ∀ c ∈ t, termChar c = false := by
  intro t ht
  unfold listTokens at ht
  have hmem := List.mem_filter.mp ht
  refine ⟨by simpa using hmem.right, ?_⟩
  exact splitAux_chunks_clean termChar content [] (by simp) t hmem.left

/-- C6 (amended): when the enabled flag is present and true, add makes a
subsequent list return the previously stored patterns followed by the
added ones, in order, with no deduplication or reordering; when the flag
is present and false, add is a no-op returning success; when the
configuration key is absent, add is a no-op on the file but returns
GIT_ENOTFOUND rather than success. -/
theorem checkout_add_spec (repo : RepoState) (q : List (List Char)) :
    (repo.sparseFlag = ConfigRead.ok true →
        (∀ p ∈ q, p ≠ [] ∧ ∀ c ∈ p, termChar c = false) →
        (git_sparse_checkout_add q repo).fst = 0 ∧
        git_sparse_checkout__list
            (((git_sparse_checkout_add q repo).snd.fileContent).getD []) =
          git_sparse_checkout__list (repo.fileContent.getD []) ++ q) ∧
    (repo.sparseFlag = ConfigRead.ok false →
        git_sparse_checkout_add q repo = (0, repo)) ∧
    (repo.sparseFlag = ConfigRead.notFound →
        git_sparse_checkout_add q repo = (GIT_ENOTFOUND, repo)) := by
  refine ⟨?_, ?_, ?_⟩
  · intro h hq
    have hgood : ∀ p ∈ git_sparse_checkout__list (repo.fileContent.getD []) ++ q,
        p ≠ [] ∧ ∀ c ∈ p, termChar c = false := by
      intro p hp
      rcases List.mem_append.mp hp with hp | hp
      · exact listTokens_good _ p hp
      · exact hq p hp
    constructor
    · simp [git_sparse_checkout_add, h]
    · simp only [git_sparse_checkout_add, h]
      simpa using set_list_roundtrip _ hgood
  · intro h
    simp [git_sparse_checkout_add, h]
  · intro h
    simp [git_sparse_checkout_add, h]

/-- Counterexample for C6 as stated: with the configuration key absent,
add returns GIT_ENOTFOUND (-3), not success. -/
theorem checkout_add_notfound_not_success :
    (git_sparse_checkout_add [chars "x"]
        { sparseFlag := ConfigRead.notFound
          fileContent := some (chars "a")
          isBare := false
          ignoreCase := false }).fst ≠ 0 := by decide

/-- A concrete enabled repository used to witness the amended C6. -/
def repoAddDemo : RepoState :=
  { sparseFlag := ConfigRead.ok true
    fileContent := some (chars "a")
    isBare := false
    ignoreCase := false }

/-- Witness for the amended C6 on a concrete enabled repository. -/
theorem checkout_add_spec_witness :
    (git_sparse_checkout_add [chars "x"] repoAddDemo).fst = 0 ∧
    git_sparse_checkout__list
        (((git_sparse_checkout_add [chars "x"] repoAddDemo).snd.fileContent).getD []) =
      git_sparse_checkout__list (repoAddDemo.fileContent.getD []) ++ [chars "x"] :=
  (checkout_add_spec repoAddDemo [chars "x"]).left rfl (by decide)

/-- Equation of the glob matcher on the empty pattern. -/
theorem globMatch_nil (s : List Char) : globMatch [] s = s.isEmpty := rfl

/-- Equation of the glob matcher on a non-empty pattern and empty
string. -/
theorem globMatch_cons_nil (c : Char) (ps : List Char) :
    globMatch (c :: ps) [] =
      (if c == '*' then (sfx []).any (fun t => globMatch ps t) else false) := rfl

/-- Equation of the glob matcher on non-empty pattern and string. -/
theorem globMatch_cons_cons (c : Char) (ps : List Char) (d : Char) (ss : List Char) :
    globMatch (c :: ps) (d :: ss) =
      (if c == '*' then (sfx (d :: ss)).any (fun t => globMatch ps t)
       else (c == '?' || c == d) && globMatch ps ss) := rfl

/-- A pattern without glob metacharacters matches exactly itself. -/
theorem globMatch_no_wild :
    ∀ (p s : List Char), hasWildcard p = false → (globMatch p s = true ↔ p = s) := by
  intro p
  induction p with
  | nil =>
      intro s _
      cases s <;> simp [globMatch_nil]
  | cons c ps ih =>
      intro s hw
      have hw2 : isWildChar c = false ∧ hasWildcard ps = false := by
        simpa [hasWildcard, List.any_cons, Bool.or_eq_false_iff] using hw
      have hstar : (c == '*') = false := by
        have := hw2.left
        simp only [isWildChar, Bool.or_eq_false_iff] at this
        exact this.left
      have hq : (c == '?') = false := by
        have := hw2.left
        simp only [isWildChar, Bool.or_eq_false_iff] at this
        exact this.right
      cases s with
      | nil => simp [globMatch_cons_nil, hstar]
      | cons d ss =>
          rw [globMatch_cons_cons, if_neg (by simp [hstar])]
          simp only [hq, Bool.false_or, Bool.and_eq_true, beq_iff_eq,
            List.cons.injEq]
          rw [ih ss hw2.right]

/-- Lowercase folding only maps letters; a slash can only come from a
slash. -/
theorem lowerChar_eq_slash (c : Char) (h : lowerChar c = '/') : c = '/' := by
  unfold lowerChar at h
  split at h <;> first | exact h | exact absurd h (by decide)

/-- Lowercase folding never creates a glob metacharacter. -/
theorem lowerChar_wild (c : Char) (h : isWildChar (lowerChar c) = true) :
    isWildChar c = true := by
  unfold lowerChar at h
  split at h <;> first | exact h | exact absurd h (by decide)

/-- Canonicalizing a wildcard-free pattern keeps it wildcard-free. -/
theorem canon_no_wild (ic : Bool) (p : List Char) (h : hasWildcard p = false) :
    hasWildcard (canon ic p) = false := by
  cases ic with
  | false => simpa [canon] using h
  | true =>
      show hasWildcard (p.map lowerChar) = false
      unfold hasWildcard at h ⊢
      rw [List.any_map]
      rw [List.any_eq_false] at h ⊢
      intro c hc hwc
      exact h c hc (lowerChar_wild c (by simpa using hwc))

/-- A slash in the canonical form comes from a slash in the original. -/
theorem canon_mem_slash (ic : Bool) (s : List Char) (h : '/' ∈ canon ic s) :
    '/' ∈ s := by
  cases ic with
  | false => simpa [canon] using h
  | true =>
      have h2 : '/' ∈ s.map lowerChar := by simpa [canon] using h
      rcases List.mem_map.mp h2 with ⟨c, hc, hce⟩
      have hcs : c = '/' := lowerChar_eq_slash c hce
      subst hcs
      exact hc

/-- A slash survives canonicalization. -/
theorem slash_mem_canon (ic : Bool) (s : List Char) (h : '/' ∈ s) :
    '/' ∈ canon ic s := by
  cases ic with
  | false => simpa [canon] using h
  | true =>
      have : '/' ∈ s.map lowerChar := List.mem_map.mpr ⟨'/', h, rfl⟩
      simpa [canon] using this

/-- On a single-segment prefix, the matched string is the segment itself
whether or not the pattern contains a slash. -/
theorem ruleTarget_single (r : Rule) (s : List Char) : ruleTarget r [s] = s := by
  unfold ruleTarget
  split <;> rfl

/-- A path string without slashes is its own single segment. -/
theorem splitSlash_clean (p : List Char) (h : ('/' ∈ p) → False) :
    splitSlash p = [p] := by
  apply splitOnPred_clean
  intro c hc
  rw [beq_eq_false_iff_ne]
  intro hcc
  subst hcc
  exact h hc

/-- Transfer lemma for the dead-rule check: when a wildcard-free rule
`r` matches a slash-free single segment, any rule that fails to match
`r`'s pattern taken as a path also fails to match that segment. -/
theorem dropped_no_match (ic : Bool) (r prior : Rule) (s : List Char)
    (hri : r.icase = ic) (hpi : prior.icase = ic)
    (hpw : hasWildcard r.pattern = false)
    (hs : ('/' ∈ s) → False)
    (hm : matchesModel r [s] = true)
    (hnm : matchesModel prior (splitSlash r.pattern) = false) :
    matchesModel prior [s] = false := by
  unfold matchesModel at hm
  rw [ruleTarget_single, hri] at hm
  have hcanon : canon ic r.pattern = canon ic s :=
    (globMatch_no_wild _ _ (canon_no_wild ic r.pattern hpw)).mp hm
  by_cases hsl : '/' ∈ r.pattern
  · exfalso
    exact hs (canon_mem_slash ic s (hcanon ▸ slash_mem_canon ic r.pattern hsl))
  · rw [splitSlash_clean r.pattern hsl] at hnm
    unfold matchesModel at hnm ⊢
    rw [ruleTarget_single, hpi] at hnm
    rw [ruleTarget_single, hpi, ← hcanon]
    exact hnm

/-- Appending one rule to the rule vector prepends it to the reverse
scan. -/
theorem scan_append_one (m : Matcher) (rules : List Rule) (r : Rule)
    (segs : List (List Char)) (d : DirFlag) :
    sparse_lookup_in_rules m (rules ++ [r]) segs d =
      orCont
        (if r.directory && d == DirFlag.isFalse then none
         else if m r segs then
           some (if r.negative then Decision.nocheckout else Decision.checkout)
         else none)
        (sparse_lookup_in_rules m rules segs d) := by
  unfold sparse_lookup_in_rules
  rw [List.reverse_append]
  simp only [List.reverse_cons, List.reverse_nil, List.nil_append,
    List.singleton_append, List.findSome?_cons]
  cases hfr : (if r.directory && d == DirFlag.isFalse then none
      else if m r segs then
        some (if r.negative then Decision.nocheckout else Decision.checkout)
      else none) with
  | some b => rfl
  | none => rfl

/-- A scan over rules none of which matches finds nothing. -/
theorem scan_none_of_no_match (rules : List Rule) (segs : List (List Char))
    (d : DirFlag) (h : ∀ r ∈ rules, matchesModel r segs = false) :
    sparse_lookup_in_rules matchesModel rules segs d = none := by
  unfold sparse_lookup_in_rules
  rw [List.findSome?_eq_none_iff]
  intro a ha
  have := h a (List.mem_reverse.mp ha)
  simp [this]

/-- Well-formedness of a parsed rule set: every rule carries the parse
flag's case setting and an accurate wildcard flag. -/
def rules_wf (ic : Bool) (rules : List Rule) : Prop :=
  ∀ r ∈ rules, r.icase = ic ∧ r.haswild = hasWildcard r.pattern

/-- Scan agreement on slash-free single segments between the
un-optimized and the optimized rule set: the scans agree, or the
un-optimized scan stops on a dropped negation (Excluded) while the
optimized scan finds nothing. -/
def scan_agree (rules0 rules1 : List Rule) : Prop :=
  ∀ (s : List Char) (d : DirFlag), (('/' ∈ s) → False) →
    sparse_lookup_in_rules matchesModel rules0 [s] d =
      sparse_lookup_in_rules matchesModel rules1 [s] d ∨
    (sparse_lookup_in_rules matchesModel rules0 [s] d = some Decision.nocheckout ∧
     sparse_lookup_in_rules matchesModel rules1 [s] d = none)

/-- Appending a well-formed rule preserves well-formedness. -/
theorem rules_wf_append (ic : Bool) (a : List Rule) (r : Rule)
    (h : rules_wf ic a) (h1 : r.icase = ic)
    (h2 : r.haswild = hasWildcard r.pattern) : rules_wf ic (a ++ [r]) := by
  intro x hx
  rcases List.mem_append.mp hx with hx | hx
  · exact h x hx
  · have hxr : x = r := by simpa using hx
    subst hxr
    exact ⟨h1, h2⟩

/-- Appending the same rule to both rule sets preserves scan
agreement. -/
theorem scan_agree_append (a0 a1 : List Rule) (r : Rule)
    (hag : scan_agree a0 a1) : scan_agree (a0 ++ [r]) (a1 ++ [r]) := by
  intro s d hs
  rw [scan_append_one, scan_append_one]
  cases ho : (if r.directory && d == DirFlag.isFalse then none
      else if matchesModel r [s] then
        some (if r.negative then Decision.nocheckout else Decision.checkout)
      else none) with
  | some dec => left; rfl
  | none =>
      simp only [orCont]
      exact hag s d hs

/-- Fields of a rule delivered by the line parser. -/
theorem parseLine_wf (ic : Bool) (line : List Char) (r : Rule)
    (h : parseLine ic line = some r) :
    r.icase = ic ∧ r.haswild = hasWildcard r.pattern := by
  unfold parseLine at h
  split at h
  · exact absurd h (by simp)
  · split at h
    · exact absurd h (by simp)
    · rw [Option.some.injEq] at h
      subst h
      exact ⟨rfl, rfl⟩
  · rw [Option.some.injEq] at h
    subst h
    exact ⟨rfl, rfl⟩

/-- Equation of the parse step on an unparsable line. -/
theorem parse_step_eq_none (negOne : Rule → Rule → Bool) (ic : Bool)
    (acc : List Rule) (line : List Char) (hp : parseLine ic line = none) :
    parse_step negOne ic acc line = acc := by
  unfold parse_step
  rw [hp]

/-- Equation of the parse step on a parsed rule. -/
theorem parse_step_eq_some (negOne : Rule → Rule → Bool) (ic : Bool)
    (acc : List Rule) (line : List Char) (r : Rule)
    (hp : parseLine ic line = some r) :
    parse_step negOne ic acc line =
      (if r.negative && !r.haswild then
        (if acc.any (fun prior => negOne prior r) then acc ++ [r] else acc)
       else acc ++ [r]) := by
  unfold parse_step
  rw [hp]

/-- Equation of the elimination-free parse step on an unparsable line. -/
theorem parse_step_ne_eq_none (ic : Bool) (acc : List Rule) (line : List Char)
    (hp : parseLine ic line = none) : parse_step_ne ic acc line = acc := by
  unfold parse_step_ne
  rw [hp]

/-- Equation of the elimination-free parse step on a parsed rule. -/
theorem parse_step_ne_eq_some (ic : Bool) (acc : List Rule) (line : List Char)
    (r : Rule) (hp : parseLine ic line = some r) :
    parse_step_ne ic acc line = acc ++ [r] := by
  unfold parse_step_ne
  rw [hp]

/-- One parse step preserves well-formedness of both rule sets and scan
agreement between them. -/
theorem parse_step_preserves (ic : Bool) (line : List Char)
    (a0 a1 : List Rule) (h0 : rules_wf ic a0) (h1 : rules_wf ic a1)
    (hag : scan_agree a0 a1) :
    rules_wf ic (parse_step_ne ic a0 line) ∧
    rules_wf ic (parse_step doesNegateModel ic a1 line) ∧
    scan_agree (parse_step_ne ic a0 line) (parse_step doesNegateModel ic a1 line) := by
  cases hp : parseLine ic line with
  | none =>
      rw [parse_step_ne_eq_none ic a0 line hp,
        parse_step_eq_none doesNegateModel ic a1 line hp]
      exact ⟨h0, h1, hag⟩
  | some r =>
      obtain ⟨hri, hrw⟩ := parseLine_wf ic line r hp
      have h0' := rules_wf_append ic a0 r h0 hri hrw
      have h1' := rules_wf_append ic a1 r h1 hri hrw
      rw [parse_step_ne_eq_some ic a0 line r hp,
        parse_step_eq_some doesNegateModel ic a1 line r hp]
      by_cases hcond : (r.negative && !r.haswild) = true
      · rw [if_pos hcond]
        by_cases hany : (a1.any (fun prior => doesNegateModel prior r)) = true
        · rw [if_pos hany]
          exact ⟨h0', h1', scan_agree_append a0 a1 r hag⟩
        · rw [if_neg hany]
          have hanyf : a1.any (fun prior => doesNegateModel prior r) = false := by
            simpa using hany
          refine ⟨h0', h1, ?_⟩
          intro s d hs
          rw [scan_append_one]
          by_cases happ : (r.directory && d == DirFlag.isFalse) = true
          · rw [if_pos happ]
            simp only [orCont]
            exact hag s d hs
          · rw [if_neg happ]
            by_cases hm : matchesModel r [s] = true
            · rw [if_pos hm]
              right
              have hconj : r.negative = true ∧ r.haswild = false := by
                simpa using hcond
              have hneg : r.negative = true := hconj.left
              constructor
              · simp [orCont, hneg]
              · apply scan_none_of_no_match
                intro prior hprior
                have hnm : doesNegateModel prior r = false := by
                  have hall := List.any_eq_false.mp hanyf
                  have := hall prior hprior
                  simpa using this
                have hpw : hasWildcard r.pattern = false := by
                  rw [← hrw]
                  exact hconj.right
                exact dropped_no_match ic r prior s hri (h1 prior hprior).left
                  hpw hs hm hnm
            · rw [if_neg hm]
              simp only [orCont]
              exact hag s d hs
      · rw [if_neg hcond]
        exact ⟨h0', h1', scan_agree_append a0 a1 r hag⟩

/-- The parse fold preserves the invariant along the whole line list. -/
theorem parse_fold_invariant (ic : Bool) :
    ∀ (lines : List (List Char)) (a0 a1 : List Rule),
      rules_wf ic a0 → rules_wf ic a1 → scan_agree a0 a1 →
      rules_wf ic (lines.foldl (parse_step_ne ic) a0) ∧
      rules_wf ic (lines.foldl (parse_step doesNegateModel ic) a1) ∧
      scan_agree (lines.foldl (parse_step_ne ic) a0)
        (lines.foldl (parse_step doesNegateModel ic) a1) := by
  intro lines
  induction lines with
  | nil => intro a0 a1 h0 h1 hag; exact ⟨h0, h1, hag⟩
  | cons line rest ih =>
      intro a0 a1 h0 h1 hag
      obtain ⟨h0', h1', hag'⟩ := parse_step_preserves ic line a0 a1 h0 h1 hag
      exact ih _ _ h0' h1' hag'

/-- C3 (amended): for single-segment candidate paths (no ancestor levels
to walk) the dead-rule elimination is behavior-preserving — lookup over
the rule set parsed with the elimination step equals lookup over the rule
set parsed without it. -/
theorem dead_rule_elim_single_segment (ic : Bool) (lines : List (List Char))
    (s : List Char) (d : DirFlag) (hs : ('/' ∈ s) → False) :
    git_sparse__lookup matchesModel (parse_sparse_file_ne ic lines) [s] d =
      git_sparse__lookup matchesModel (parse_sparse_file doesNegateModel ic lines) [s] d := by
  have hbase0 : rules_wf ic ([] : List Rule) := by
    intro r hr
    exact absurd hr (by simp)
  have hbase1 : scan_agree ([] : List Rule) [] := by
    intro s d hs
    left
    rfl
  obtain ⟨-, -, hag⟩ := parse_fold_invariant ic lines [] [] hbase0 hbase0 hbase1
  have h := hag s d hs
  unfold git_sparse__lookup
  have hrev : ([s] : List (List Char)).reverse = [s] := by simp
  rw [hrev, lookup_walk_cons, lookup_walk_cons, hrev]
  unfold parse_sparse_file_ne parse_sparse_file
  rcases h with heq | ⟨h0, h1⟩
  · rw [heq]
  · rw [h0, h1]
    rfl

/-- Counterexample for C3 as stated: on pattern text `sub` + `!sub/b.txt`
and the two-segment path `sub/b.txt`, the eliminated rule set yields
Included (the walk continues to the ancestor level `sub`, which matches),
while the un-optimized rule set yields Excluded at the leaf level. -/
theorem dead_rule_elim_not_behavior_preserving :
    git_sparse__lookup matchesModel
        (parse_sparse_file_ne false (linesOf (chars "sub\n!sub/b.txt")))
        (splitSlash (chars "sub/b.txt")) DirFlag.isFalse ≠
      git_sparse__lookup matchesModel
        (parse_sparse_file doesNegateModel false (linesOf (chars "sub\n!sub/b.txt")))
        (splitSlash (chars "sub/b.txt")) DirFlag.isFalse := by
  decide

/-- Witness for the amended C3 on the spec's own dead-rule example. -/
theorem dead_rule_elim_single_segment_witness :
    git_sparse__lookup matchesModel
        (parse_sparse_file_ne false (linesOf (chars "a.txt\n!b.txt")))
        [chars "b.txt"] DirFlag.isFalse =
      git_sparse__lookup matchesModel
        (parse_sparse_file doesNegateModel false (linesOf (chars "a.txt\n!b.txt")))
        [chars "b.txt"] DirFlag.isFalse :=
  dead_rule_elim_single_segment false (linesOf (chars "a.txt\n!b.txt"))
    (chars "b.txt") DirFlag.isFalse (by decide)
